import Mathlib

/-!
Shallow embedding of the ai-service model cache and inference service
(src/backend/ai-service/src/utils/ml_utils.py and
src/backend/ai-service/src/services/pytorch_service.py), together with
theorems settling the specification claims about them.

Conventions of the embedding:
* Python dicts are insertion-ordered association lists; assignment to an
  existing key keeps its position (CPython semantics), assignment to a fresh
  key appends, and deletion filters the key out.
* Loaded torch models are opaque handles represented by natural numbers.
* Ambient torch state (cuda availability, torch.cuda.memory_allocated) is an
  environment record; memory_allocated is modelled as a function of the set
  of resident models, re-read by the code after every eviction.
* torch.cuda.current_timestamp() and time.time() are supplied per call as a
  clock value (a natural number).
* float quantities that feed arithmetic (utilization ratios, feature values)
  are rationals.
-/

/-- Python dict lookup: the value bound to the key, if any (keys are unique
in a dict, so the first binding is the binding). -/
def dictGet {α : Type} : List (String × α) → String → Option α
  | [], _ => none
  | p :: ps, k => if p.1 = k then some p.2 else dictGet ps k

/-- Python dict assignment: overwrite in place if the key is present
(keeping its position), otherwise append at the end. -/
def dictSet {α : Type} : List (String × α) → String → α → List (String × α)
  | [], k, v => [(k, v)]
  | p :: ps, k, v => if p.1 = k then (k, v) :: ps else p :: dictSet ps k v

/-- Python dict deletion (del d[k]): remove the binding of the key. -/
def dictDel {α : Type} : List (String × α) → String → List (String × α)
  | [], _ => []
  | p :: ps, k => if p.1 = k then ps else p :: dictDel ps k

theorem dictGet_dictSet_self {α : Type} (d : List (String × α)) (k : String) (v : α) :
    dictGet (dictSet d k v) k = some v := by
  induction d with
  | nil => simp [dictGet, dictSet]
  | cons p ps ih =>
    by_cases hp : p.1 = k
    · simp [dictGet, dictSet, hp]
    · simp [dictGet, dictSet, hp, ih]

theorem dictGet_dictSet_ne {α : Type} (d : List (String × α)) (k k' : String) (v : α)
    (h : k' ≠ k) : dictGet (dictSet d k v) k' = dictGet d k' := by
  induction d with
  | nil => simp [dictGet, dictSet, Ne.symm h]
  | cons p ps ih =>
    by_cases hp : p.1 = k
    · simp [dictGet, dictSet, hp, Ne.symm h]
    · by_cases hp' : p.1 = k'
      · simp [dictGet, dictSet, hp, hp', h]
      · simp [dictGet, dictSet, hp, hp', ih]

theorem mem_dictDel {α : Type} (d : List (String × α)) (k : String) (q : String × α)
    (h : q ∈ dictDel d k) : q ∈ d := by
  induction d with
  | nil => simp [dictDel] at h
  | cons p ps ih =>
    by_cases hp : p.1 = k
    · simp only [dictDel, if_pos hp] at h
      exact List.mem_cons_of_mem p h
    · simp only [dictDel, if_neg hp, List.mem_cons] at h
      rcases h with h | h
      · exact h ▸ List.mem_cons_self p ps
      · exact List.mem_cons_of_mem p (ih h)

theorem length_dictDel_lt {α : Type} (d : List (String × α)) (k : String)
    (h : dictGet d k ≠ none) : (dictDel d k).length < d.length := by
  induction d with
  | nil => simp [dictGet] at h
  | cons p ps ih =>
    by_cases hp : p.1 = k
    · simp [dictDel, hp, Nat.lt_succ_self]
    · simp only [dictGet, if_neg hp] at h
      simp only [dictDel, if_neg hp, List.length_cons]
      exact Nat.succ_lt_succ (ih h)

/-! ## ml_utils.py : ModelManager -/

/-- MODEL_TYPES = ["BERT", "GPT", "CUSTOM"] -/
def MODEL_TYPES : List String := ["BERT", "GPT", "CUSTOM"]

/-- The two dicts of a ModelManager: self._model_cache (key to loaded model
handle) and self._last_accessed (key to timestamp). -/
structure MMState where
  modelCache : List (String × Nat)
  lastAccessed : List (String × Nat)
deriving DecidableEq, Repr

/-- Ambient torch state seen by ModelManager: whether cuda is available, and
torch.cuda.memory_allocated() as a function of the resident model cache
(re-read after each eviction). -/
structure MMEnv where
  cudaAvailable : Bool
  mem : List (String × Nat) → Nat

/-- min(d.items(), key=lambda x: x[1]): first item with minimal value in
iteration order (Python min keeps the earliest among ties). -/
def minByVal (d : List (String × Nat)) : Option (String × Nat) :=
  match d with
  | [] => none
  | p :: ps => some (ps.foldl (fun acc q => if q.2 < acc.2 then q else acc) p)

/-- The while loop of ModelManager._update_cache, fuel-based so that it is
structurally recursive: while memory_allocated() > cache_size and the cache
is non-empty, delete the least-recently-used key from both dicts and release
memory. Returns the surviving cache, surviving last-accessed dict, and the
list of evicted keys in eviction order. The fuel is instantiated with the
length of the last-accessed dict, which bounds the number of iterations. -/
def evictLoopF (env : MMEnv) (budget : Nat) :
    Nat → List (String × Nat) → List (String × Nat) →
    List (String × Nat) × List (String × Nat) × List String
  | 0, cache, lastAcc => (cache, lastAcc, [])
  | fuel + 1, cache, lastAcc =>
    if budget < env.mem cache ∧ cache ≠ [] then
      match minByVal lastAcc with
      | none => (cache, lastAcc, [])
      | some (k, _) =>
        let r := evictLoopF env budget fuel (dictDel cache k) (dictDel lastAcc k)
        (r.1, r.2.1, k :: r.2.2)
    else (cache, lastAcc, [])

/-- Eviction loop of _update_cache entered with fuel covering every possible
iteration (each iteration removes a key from last_accessed). -/
def evictLoop (env : MMEnv) (budget : Nat)
    (cache lastAcc : List (String × Nat)) :
    List (String × Nat) × List (String × Nat) × List String :=
  evictLoopF env budget lastAcc.length cache lastAcc

/-- ModelManager._update_cache: when cuda is available, run the LRU eviction
loop against the byte budget, then insert the new model into the cache and
stamp its last-access time (the cuda timestamp when cuda is available, else
0). Also returns the evicted keys; in the source each eviction is followed
by torch.cuda.empty_cache() before the insertion happens. -/
def update_cache (env : MMEnv) (budget now : Nat)
    (cache lastAcc : List (String × Nat)) (key : String) (model : Nat) :
    List (String × Nat) × List (String × Nat) × List String :=
  let r :=
    if env.cudaAvailable then evictLoop env budget cache lastAcc
    else (cache, lastAcc, [])
  (dictSet r.1 key model,
   dictSet r.2.1 key (if env.cudaAvailable then now else 0),
   r.2.2)

/-- cache_key = f"{model_name}_{model_type}" -/
def cacheKey (name ty : String) : String := name ++ "_" ++ ty

inductive MMErr
  | invalidModelType
  | loadError
deriving DecidableEq, Repr

/-- ModelManager.get_model. The clock value of torch.cuda.current_timestamp()
is the argument now; newModel is the handle the load would produce, and
loadOk says whether the load raises. Returns (model, wasLoad, new state). -/
def get_model (env : MMEnv) (budget now newModel : Nat) (loadOk : Bool)
    (st : MMState) (name ty : String) (forceReload : Bool) :
    Except MMErr (Nat × Bool × MMState) :=
  if ty ∉ MODEL_TYPES then .error .invalidModelType
  else
    match forceReload, dictGet st.modelCache (cacheKey name ty) with
    | false, some m =>
      .ok (m, false,
        { st with lastAccessed := dictSet st.lastAccessed (cacheKey name ty) now })
    | _, _ =>
      if loadOk then
        let r := update_cache env budget now st.modelCache st.lastAccessed
          (cacheKey name ty) newModel
        .ok (newModel, true, ⟨r.1, r.2.1⟩)
      else .error .loadError

/-- A sequence of get_model calls for one (name, type) key with
force_reload=false, at the given clock values. Each element of the result
records (model returned, whether a fresh load happened, the value of
last_accessed[key] right after the call). On an error the state is
unchanged (the Python exception propagates before any mutation). -/
def getSeq (env : MMEnv) (budget newModel : Nat) (loadOk : Bool)
    (name ty : String) :
    MMState → List Nat → List (Except MMErr (Nat × Bool × Nat))
  | _, [] => []
  | st, t :: ts =>
    match get_model env budget t newModel loadOk st name ty false with
    | .error e => .error e :: getSeq env budget newModel loadOk name ty st ts
    | .ok (m, w, st1) =>
      .ok (m, w, (dictGet st1.lastAccessed (cacheKey name ty)).getD 0)
        :: getSeq env budget newModel loadOk name ty st1 ts

/-- Stable insertion by timestamp: the element is placed after every entry
with a strictly smaller timestamp and before the first entry with a greater
or equal one, so that a foldr over the original list yields exactly the
stable ascending sort Python sorted(...) with key=lambda x: x[1] produces. -/
def insByTs (p : String × Nat) : List (String × Nat) → List (String × Nat)
  | [] => [p]
  | q :: qs => if p.2 ≤ q.2 then p :: q :: qs else q :: insByTs p qs

/-- Python sorted(d.items(), key=lambda x: x[1]): stable ascending sort by
timestamp (ties keep insertion order). -/
def sortByTs (d : List (String × Nat)) : List (String × Nat) :=
  d.foldr insByTs []

/-- ModelManager.clear_cache. util is the float ratio
torch.cuda.memory_allocated() / torch.cuda.max_memory_allocated() read when
cuda is available. Returns (new state, cleared_models, whether
torch.cuda.empty_cache() ran). Mirrors the source exactly: the force branch
clears both dicts first and only then reads len(self._model_cache) for the
returned count. The for loop of del statements over models_to_remove is
rendered as a filter, which coincides with it because dict keys are unique. -/
def clear_cache (env : MMEnv) (util : ℚ) (st : MMState)
    (forceClear : Bool) (memoryThreshold : ℚ) : MMState × Nat × Bool :=
  if forceClear then
    let clearedCache : List (String × Nat) := []
    let clearedLast : List (String × Nat) := []
    (⟨clearedCache, clearedLast⟩, clearedCache.length, env.cudaAvailable)
  else if env.cudaAvailable then
    if memoryThreshold < util then
      let toRemove := (sortByTs st.lastAccessed).take (st.modelCache.length / 2)
      let ks := toRemove.map (fun p => p.1)
      (⟨st.modelCache.filter (fun p => p.1 ∉ ks),
        st.lastAccessed.filter (fun p => p.1 ∉ ks)⟩,
       toRemove.length, true)
    else (st, 0, false)
  else (st, 0, false)

/-! ## pytorch_service.py -/

/-- Typed rendering of the exceptions the service code can raise.
circuitOpen stands for the RuntimeError("Circuit breaker is open") that only
the circuit_breaker wrapper raises. -/
inductive SvcErr
  | invalidInput
  | keyError
  | preprocessError
  | inferError
  | inferenceTimeout
  | loadError
  | emptyBatch
  | circuitOpen
deriving DecidableEq, Repr

/-- Nonlocal state of one circuit_breaker decorator instance: the failure
counter and the time.time() value of the last failure (both start at 0). -/
structure CBState where
  failures : Nat
  lastFailureTime : Nat
deriving DecidableEq, Repr

/-- One call through the circuit_breaker wrapper. now is time.time() at call
entry; op is the outcome the wrapped operation would produce if invoked.
Returns (new breaker state, outcome surfaced to the caller, whether the
wrapped operation was actually invoked). -/
def circuit_breaker_call {α : Type} (maxFailures resetTimeout : Nat)
    (st : CBState) (now : Nat) (op : Except SvcErr α) :
    CBState × Except SvcErr α × Bool :=
  if maxFailures ≤ st.failures ∧ now - st.lastFailureTime < resetTimeout then
    (st, .error .circuitOpen, false)
  else
    match op with
    | .ok a => (⟨0, st.lastFailureTime⟩, .ok a, true)
    | .error e => (⟨st.failures + 1, now⟩, .error e, true)

/-- Prometheus metric mutations performed by the service, in program order. -/
inductive SvcEvent
  | cacheHitInc
  | modelLoadObserved
  | inferenceObserved
  | predictionErrorInc
  | gpuGaugeSet
deriving DecidableEq, Repr

/-- Data values flowing through predict: a raw text, or the encoded batch
structure that preprocess_text_data returns in batch mode (tokenizer output
is opaque; a group is kept as its member texts). -/
inductive Val
  | txt (s : String)
  | encGroups (gs : List (List String))
deriving DecidableEq, Repr

/-- Ambient environment of PyTorchService: cuda availability, what
torch.load produces for a path (none = the load, validation, or warm-up
raises), the single-item tokenizer, the forward pass of a loaded model
(none = inference raises), and whether the inference elapsed time exceeds
INFERENCE_TIMEOUT_SECONDS. -/
structure PSvcEnv where
  cudaAvailable : Bool
  loadTorch : String → Option Nat
  tokenizeSingle : Val → Option Val
  runModel : Nat → Val → Option (List (List ℚ))
  inferSlow : Bool

/-- The prediction_config / batch_config dict, reduced to the keys the code
reads: model_path and model_config (emptiness of the latter is all the code
tests). -/
structure PredConfig where
  modelPath : String
  modelConfig : List (String × String)
deriving DecidableEq, Repr

/-- Mutable state of a PyTorchService instance: self._model_cache. -/
structure SvcState where
  modelCache : List (String × Nat)
deriving DecidableEq, Repr

/-- Body of load_model (pytorch_service.py), before the monitor_resources
decorator: validate path and config non-empty, torch.load, post-hoc timeout
check, architecture check, move to device, warm-up (the last four folded
into env.loadTorch returning none on any failure). -/
def load_model_impl (env : PSvcEnv) (modelPath : String)
    (modelConfig : List (String × String)) : Except SvcErr Nat :=
  if modelPath = "" ∨ modelConfig = [] then .error .invalidInput
  else
    match env.loadTorch modelPath with
    | none => .error .loadError
    | some m => .ok m

/-- load_model as decorated by monitor_resources: on success set the GPU
gauge when cuda is available; on failure bump PREDICTION_ERRORS; in both
cases observe MODEL_LOAD_TIME (func.__name__ == "load_model"). -/
def load_model (env : PSvcEnv) (modelPath : String)
    (modelConfig : List (String × String)) : Except SvcErr Nat × List SvcEvent :=
  match load_model_impl env modelPath modelConfig with
  | .ok m =>
    (.ok m, (if env.cudaAvailable then [SvcEvent.gpuGaugeSet] else []) ++
      [SvcEvent.modelLoadObserved])
  | .error e => (.error e, [SvcEvent.predictionErrorInc, SvcEvent.modelLoadObserved])

/-- Body of PyTorchService.predict before its monitor_resources decorator.
Returns (outcome, state after the call, metric events). State mutations made
before an exception persist, as in Python. Steps in source order: validate
input_data and model_name non-empty; cache lookup (hit bumps CACHE_HITS,
miss loads and inserts); preprocess input_data["text"]; forward pass without
grad; post-hoc inference timeout check; package the result. -/
def predict_impl (env : PSvcEnv) (st : SvcState) (modelName : String)
    (inputData : List (String × Val)) (cfg : PredConfig) :
    Except SvcErr (List (List ℚ)) × SvcState × List SvcEvent :=
  if inputData = [] ∨ modelName = "" then (.error .invalidInput, st, [])
  else
    let resolved : Except SvcErr Nat × SvcState × List SvcEvent :=
      match dictGet st.modelCache modelName with
      | some m => (.ok m, st, [SvcEvent.cacheHitInc])
      | none =>
        match load_model env cfg.modelPath cfg.modelConfig with
        | (.ok m, evs) => (.ok m, ⟨dictSet st.modelCache modelName m⟩, evs)
        | (.error e, evs) => (.error e, st, evs)
    match resolved with
    | (.error e, st1, evs) => (.error e, st1, evs)
    | (.ok m, st1, evs) =>
      match dictGet inputData "text" with
      | none => (.error .keyError, st1, evs)
      | some v =>
        match env.tokenizeSingle v with
        | none => (.error .preprocessError, st1, evs)
        | some enc =>
          match env.runModel m enc with
          | none => (.error .inferError, st1, evs)
          | some preds =>
            if env.inferSlow then (.error .inferenceTimeout, st1, evs)
            else (.ok preds, st1, evs)

/-- PyTorchService.predict as decorated by monitor_resources
(func.__name__ == "predict"): on success set the GPU gauge when cuda is
available; on failure bump PREDICTION_ERRORS; always observe INFERENCE_TIME. -/
def predictM (env : PSvcEnv) (st : SvcState) (modelName : String)
    (inputData : List (String × Val)) (cfg : PredConfig) :
    Except SvcErr (List (List ℚ)) × SvcState × List SvcEvent :=
  match predict_impl env st modelName inputData cfg with
  | (.ok p, st1, evs) =>
    (.ok p, st1, evs ++ (if env.cudaAvailable then [SvcEvent.gpuGaugeSet] else []) ++
      [SvcEvent.inferenceObserved])
  | (.error e, st1, evs) =>
    (.error e, st1, evs ++ [SvcEvent.predictionErrorInc, SvcEvent.inferenceObserved])

/-- MAX_BATCH_SIZE = 32 (ml_utils.py), the chunk bound of
preprocess_text_data in batch mode. -/
def MAX_BATCH_SIZE : Nat := 32

/-- BATCH_SIZE = 32 (pytorch_service.py). batch_predict is embedded with the
bound as a parameter so the claims can quantify over it; the source fixes it
to this constant. -/
def BATCH_SIZE : Nat := 32

/-- Fuel-based chunking: [xs[i:i+k] for i in range(0, len(xs), k)]. The fuel
only needs to be at least the list length; chunkList instantiates it so. -/
def chunkAux {α : Type} (k : Nat) : Nat → List α → List (List α)
  | 0, _ => []
  | _, [] => []
  | fuel + 1, xs => xs.take k :: chunkAux k fuel (xs.drop k)

/-- Slicing a list into consecutive chunks of size k (last one may be
shorter), as range(0, len, k) slicing does for k ≥ 1. -/
def chunkList {α : Type} (k : Nat) (xs : List α) : List (List α) :=
  chunkAux k xs.length xs

/-- preprocess_text_data in batch mode over a list of texts: the input list
is chunked into groups of at most MAX_BATCH_SIZE and each group is tokenized
jointly; the tokenizer output of a group is kept opaque as the group itself. -/
def preprocess_text_batch (texts : List String) : Val :=
  Val.encGroups (chunkList MAX_BATCH_SIZE texts)

/-- The for loop of PyTorchService.batch_predict: for each chunk, preprocess
its texts in batch mode, delegate to predict ({"text": preprocessed}), and
extend the running prediction list; on an exception the loop aborts and the
error propagates (partial results are discarded). State threads through the
shared model cache. -/
def batchLoop (env : PSvcEnv) (modelName : String) (cfg : PredConfig) :
    SvcState → List (List String) →
    Except SvcErr (List (List ℚ)) × SvcState × List SvcEvent
  | st, [] => (.ok [], st, [])
  | st, c :: cs =>
    match predictM env st modelName [("text", preprocess_text_batch c)] cfg with
    | (.error e, st1, evs) => (.error e, st1, evs)
    | (.ok preds, st1, evs) =>
      match batchLoop env modelName cfg st1 cs with
      | (.ok rest, st2, evs2) => (.ok (preds ++ rest), st2, evs ++ evs2)
      | (.error e, st2, evs2) => (.error e, st2, evs ++ evs2)

/-- One record of batch_predict's result list: {"prediction": pred}. -/
structure PredRecord where
  prediction : List ℚ
deriving DecidableEq, Repr

/-- Body of PyTorchService.batch_predict before its decorator, with the
BATCH_SIZE constant abstracted as the parameter batchBound: reject an empty
batch, set batch_size = min(len(batch_data), batchBound), process chunk by
chunk, and wrap each flattened prediction row as its own record. -/
def batch_predict_impl (env : PSvcEnv) (batchBound : Nat) (st : SvcState)
    (modelName : String) (batchData : List String) (cfg : PredConfig) :
    Except SvcErr (List PredRecord) × SvcState × List SvcEvent :=
  if batchData = [] then (.error .emptyBatch, st, [])
  else
    let batchSize := min batchData.length batchBound
    match batchLoop env modelName cfg st (chunkList batchSize batchData) with
    | (.ok results, st1, evs) =>
      (.ok (results.map PredRecord.mk), st1, evs)
    | (.error e, st1, evs) => (.error e, st1, evs)

/-- batch_predict as decorated by monitor_resources
(func.__name__ == "batch_predict", so neither histogram is observed in the
finally block): on success set the GPU gauge when cuda is available; on
failure bump PREDICTION_ERRORS. -/
def batch_predictM (env : PSvcEnv) (batchBound : Nat) (st : SvcState)
    (modelName : String) (batchData : List String) (cfg : PredConfig) :
    Except SvcErr (List PredRecord) × SvcState × List SvcEvent :=
  match batch_predict_impl env batchBound st modelName batchData cfg with
  | (.ok rs, st1, evs) =>
    (.ok rs, st1, evs ++ (if env.cudaAvailable then [SvcEvent.gpuGaugeSet] else []))
  | (.error e, st1, evs) =>
    (.error e, st1, evs ++ [SvcEvent.predictionErrorInc])

/-- PyTorchService.clear_cache: clear the model cache and release cuda
memory when available. Nothing in its body can raise in this embedding, so
the try/except re-raise never fires; the Except type records that the
operation still has an error channel at its interface. -/
def svc_clear_cache (env : PSvcEnv) (_st : SvcState) :
    Except SvcErr (SvcState × Bool) :=
  .ok (⟨[]⟩, env.cudaAvailable)

/-! ## ml_utils.py : normalize_features -/

/-- A numpy float64 value as it matters here: finite (exact rational), NaN,
or a signed infinity. -/
inductive FVal
  | finite (q : ℚ)
  | nan
  | posInf
  | negInf
deriving DecidableEq, Repr

/-- np.finfo(np.float64).max, the exact value (2^53 - 1) * 2^971 that
np.nan_to_num substitutes for +inf by default. -/
def FLOAT64_MAX : ℚ := (2 ^ 53 - 1) * 2 ^ 971

/-- np.nan_to_num(x, nan=0.0) on one element: NaN becomes 0.0, +inf becomes
the largest finite float64, -inf its negation, finite values are unchanged
(posinf / neginf are left at their numpy defaults in the source). -/
def nanToNumVal : FVal → ℚ
  | .finite q => q
  | .nan => 0
  | .posInf => FLOAT64_MAX
  | .negInf => -FLOAT64_MAX

/-- np.nan_to_num(features, nan=0.0) over a 1-d array. -/
def nan_to_num (xs : List FVal) : List ℚ :=
  xs.map nanToNumVal

/-- Arithmetic mean, np.mean (0 for the empty array never arises here). -/
def listMean (xs : List ℚ) : ℚ := xs.sum / xs.length

/-- Population variance, the square of np.std (ddof=0). -/
def listVar (xs : List ℚ) : ℚ :=
  listMean (xs.map (fun x => (x - listMean xs) ^ 2))

/-- The outlier test z_scores > outlier_threshold of normalize_features,
with the z-score comparison |x - mean| / std > thr encoded on squares as
thr^2 * var < (x - mean)^2, which is equivalent whenever std > 0 and avoids
the square root. -/
def zExceeds (mu varv thr x : ℚ) : Bool :=
  thr ^ 2 * varv < (x - mu) ^ 2

/-- np.sign. -/
def signQ (q : ℚ) : ℚ := if 0 < q then 1 else if q < 0 then -1 else 0

/-- Ascending insertion used by sortQ. -/
def insQ (x : ℚ) : List ℚ → List ℚ
  | [] => [x]
  | y :: ys => if x ≤ y then x :: y :: ys else y :: insQ x ys

/-- Ascending sort of rationals (np.median sorts its input). -/
def sortQ (xs : List ℚ) : List ℚ := xs.foldr insQ []

/-- np.median over a 1-d array: middle element of the sorted array, or the
average of the two middle elements for even length. -/
def medianQ (xs : List ℚ) : ℚ :=
  let s := sortQ xs
  let n := s.length
  if n = 0 then 0
  else if n % 2 = 1 then s.getD (n / 2) 0
  else (s.getD (n / 2 - 1) 0 + s.getD (n / 2) 0) / 2

/-- The outlier-clipping statement of normalize_features for robust scaling:
features[z > thr] = np.sign(features[z > thr]) * np.median(np.abs(features)),
acting pointwise on a 1-d array; the sign is taken of the original value and
the median of absolute values includes the outliers themselves. -/
def robustClip (thr : ℚ) (xs : List ℚ) : List ℚ :=
  let mu := listMean xs
  let varv := listVar xs
  let med := medianQ (xs.map (fun x => |x|))
  xs.map (fun x => if zExceeds mu varv thr x then signQ x * med else x)

inductive NormErr
  | invalidScalingMethod
deriving DecidableEq, Repr

/-- normalize_features over a 1-d numeric array. The three sklearn scalers
are environment parameters (their numerics decide no claim); everything up
to scaler.fit_transform follows the source: np.nan_to_num with nan=0.0
first, then the scaler table lookup with its ValueError for unknown names,
then outlier clipping for the robust method only, then fit_transform. -/
def normalize_features (robustS standardS minmaxS : List ℚ → List ℚ)
    (features : List FVal) (scalingMethod : String) (outlierThreshold : ℚ) :
    Except NormErr (List ℚ) :=
  let cleaned := nan_to_num features
  if scalingMethod ∉ ["robust", "standard", "minmax"] then
    .error .invalidScalingMethod
  else
    let pre := if scalingMethod = "robust" then robustClip outlierThreshold cleaned
      else cleaned
    .ok ((if scalingMethod = "robust" then robustS
      else if scalingMethod = "standard" then standardS
      else minmaxS) pre)

/-! ## Claim C4: circuit breaker trip and reset -/

/-- C4: once the failure count has reached the configured maximum and the
time since the last failure is within the reset window, a call through the
circuit breaker fails fast with the circuit-open error without invoking the
wrapped operation; outside that condition a successful call resets the
failure counter to zero, a failing call increments it and stamps the failure
time; and once the reset window has elapsed since the last failure the
wrapped operation is invoked again even though the maximum number of
failures occurred. -/
theorem circuit_breaker_trip_reset {α : Type} (maxF resetT : Nat) (st : CBState)
    (now : Nat) (op : Except SvcErr α) :
    (maxF ≤ st.failures → now - st.lastFailureTime < resetT →
      circuit_breaker_call maxF resetT st now op = (st, .error .circuitOpen, false)) ∧
    (∀ a, op = .ok a → ¬(maxF ≤ st.failures ∧ now - st.lastFailureTime < resetT) →
      circuit_breaker_call maxF resetT st now op = (⟨0, st.lastFailureTime⟩, .ok a, true)) ∧
    (∀ e, op = .error e → ¬(maxF ≤ st.failures ∧ now - st.lastFailureTime < resetT) →
      circuit_breaker_call maxF resetT st now op = (⟨st.failures + 1, now⟩, .error e, true)) ∧
    (resetT ≤ now - st.lastFailureTime →
      (circuit_breaker_call maxF resetT st now op).2.2 = true) := by
  refine ⟨?_, ?_, ?_, ?_⟩
  · intro h1 h2
    simp [circuit_breaker_call, h1, h2]
  · intro a ha hguard
    simp [circuit_breaker_call, hguard, ha]
  · intro e he hguard
    simp [circuit_breaker_call, hguard, he]
  · intro helapsed
    have hguard : ¬(maxF ≤ st.failures ∧ now - st.lastFailureTime < resetT) := by
      intro hc
      exact absurd hc.2 (Nat.not_lt.mpr helapsed)
    cases op with
    | ok a => simp [circuit_breaker_call, hguard]
    | error e => simp [circuit_breaker_call, hguard]

/-- Witness for C4: with the default configuration (3 failures, 300 s
window), state (failures 3, last failure at 100): at time 200 the breaker
is open and the operation is not invoked; at time 500 the window has
elapsed and the operation is invoked again. -/
theorem circuit_breaker_trip_reset_witness :
    (3 ≤ (CBState.mk 3 100).failures ∧ 200 - (CBState.mk 3 100).lastFailureTime < 300) ∧
    circuit_breaker_call 3 300 (CBState.mk 3 100) 200 (.ok 5 : Except SvcErr Nat)
      = (CBState.mk 3 100, .error .circuitOpen, false) ∧
    300 ≤ 500 - (CBState.mk 3 100).lastFailureTime ∧
    (circuit_breaker_call 3 300 (CBState.mk 3 100) 500 (.ok 5 : Except SvcErr Nat)).2.2
      = true :=
  ⟨by decide,
   (circuit_breaker_trip_reset 3 300 (CBState.mk 3 100) 200 (.ok 5)).1
     (by decide) (by decide),
   by decide,
   (circuit_breaker_trip_reset 3 300 (CBState.mk 3 100) 500 (.ok 5)).2.2.2
     (by decide)⟩

/-! ## Claim C8: empty-input atomicity of predict -/

/-- C8: for every model name and an empty input_data dictionary, predict
raises the invalid-input error before any model lookup: the model cache is
unchanged, no model load happens (MODEL_LOAD_TIME is never observed) and the
cache-hit counter is not incremented; the only metric activity is the
monitor decorator's error counter and inference-time observation. -/
theorem predict_empty_input (env : PSvcEnv) (st : SvcState) (modelName : String)
    (inputData : List (String × Val)) (cfg : PredConfig)
    (h : inputData = []) :
    predictM env st modelName inputData cfg
      = (.error .invalidInput, st,
         [SvcEvent.predictionErrorInc, SvcEvent.inferenceObserved]) ∧
    (predictM env st modelName inputData cfg).2.1 = st ∧
    SvcEvent.modelLoadObserved ∉ (predictM env st modelName inputData cfg).2.2 ∧
    SvcEvent.cacheHitInc ∉ (predictM env st modelName inputData cfg).2.2 := by
  subst h
  refine ⟨?_, ?_, ?_, ?_⟩ <;> simp [predictM, predict_impl]

/-- Witness for C8 at a concrete service state and empty input dict. -/
theorem predict_empty_input_witness :
    (([] : List (String × Val)) = []) ∧
    (predictM ⟨false, fun _ => none, fun _ => none, fun _ _ => none, false⟩
        ⟨[("m0", 4)]⟩ "campaign_model" [] ⟨"p", []⟩
      = (.error .invalidInput, ⟨[("m0", 4)]⟩,
         [SvcEvent.predictionErrorInc, SvcEvent.inferenceObserved]) ∧
     (predictM ⟨false, fun _ => none, fun _ => none, fun _ _ => none, false⟩
        ⟨[("m0", 4)]⟩ "campaign_model" [] ⟨"p", []⟩).2.1 = ⟨[("m0", 4)]⟩ ∧
     SvcEvent.modelLoadObserved ∉
       (predictM ⟨false, fun _ => none, fun _ => none, fun _ _ => none, false⟩
         ⟨[("m0", 4)]⟩ "campaign_model" [] ⟨"p", []⟩).2.2 ∧
     SvcEvent.cacheHitInc ∉
       (predictM ⟨false, fun _ => none, fun _ => none, fun _ _ => none, false⟩
         ⟨[("m0", 4)]⟩ "campaign_model" [] ⟨"p", []⟩).2.2) :=
  ⟨rfl, predict_empty_input _ _ _ _ _ rfl⟩

/-! ## Claim C5: the circuit breaker is applied to no service operation -/

theorem load_model_impl_err (env : PSvcEnv) (p : String) (c : List (String × String)) :
    ∀ e, load_model_impl env p c = .error e →
      e = SvcErr.invalidInput ∨ e = SvcErr.loadError := by
  intro e h
  unfold load_model_impl at h
  split at h
  · exact Or.inl (by injection h with h1; exact h1.symm)
  · cases hl : env.loadTorch p with
    | none => rw [hl] at h; exact Or.inr (by injection h with h1; exact h1.symm)
    | some m => rw [hl] at h; exact absurd h (by simp)

theorem load_model_err (env : PSvcEnv) (p : String) (c : List (String × String)) :
    ∀ e, (load_model env p c).1 = .error e →
      e = SvcErr.invalidInput ∨ e = SvcErr.loadError := by
  intro e h
  unfold load_model at h
  cases hl : load_model_impl env p c with
  | ok m => rw [hl] at h; simp at h
  | error e2 =>
    rw [hl] at h
    simp at h
    exact h ▸ load_model_impl_err env p c e2 hl

theorem predict_tail_no_open (env : PSvcEnv) (st1 : SvcState) (m : Nat)
    (inputData : List (String × Val)) (evs : List SvcEvent) :
    (match dictGet inputData "text" with
      | none => ((.error .keyError : Except SvcErr (List (List ℚ))), st1, evs)
      | some v =>
        match env.tokenizeSingle v with
        | none => (.error .preprocessError, st1, evs)
        | some enc =>
          match env.runModel m enc with
          | none => (.error .inferError, st1, evs)
          | some preds =>
            if env.inferSlow then (.error .inferenceTimeout, st1, evs)
            else (.ok preds, st1, evs)).1 ≠ .error .circuitOpen := by
  cases ht : dictGet inputData "text" with
  | none => simp
  | some v =>
    simp only []
    cases htok : env.tokenizeSingle v with
    | none => simp
    | some enc =>
      simp only []
      cases hrun : env.runModel m enc with
      | none => simp
      | some preds =>
        simp only []
        split <;> simp

theorem predict_impl_no_open (env : PSvcEnv) (st : SvcState) (modelName : String)
    (inputData : List (String × Val)) (cfg : PredConfig) :
    (predict_impl env st modelName inputData cfg).1 ≠ .error .circuitOpen := by
  unfold predict_impl
  split
  · simp
  · cases hres : dictGet st.modelCache modelName with
    | some m =>
      simp only [hres]
      exact predict_tail_no_open env st m inputData [SvcEvent.cacheHitInc]
    | none =>
      simp only [hres]
      cases hl : load_model env cfg.modelPath cfg.modelConfig with
      | mk r evs =>
        cases r with
        | error e =>
          simp only []
          intro hcontra
          have he : e = SvcErr.circuitOpen := by
            simpa using hcontra
          rcases load_model_err env cfg.modelPath cfg.modelConfig e
              (by rw [hl]) with h1 | h1 <;> simp [he] at h1
        | ok m =>
          simp only []
          exact predict_tail_no_open env ⟨dictSet st.modelCache modelName m⟩ m
            inputData evs

theorem predictM_no_open (env : PSvcEnv) (st : SvcState) (modelName : String)
    (inputData : List (String × Val)) (cfg : PredConfig) :
    (predictM env st modelName inputData cfg).1 ≠ .error .circuitOpen := by
  unfold predictM
  cases hp : predict_impl env st modelName inputData cfg with
  | mk r rest =>
    cases rest with
    | mk st1 evs =>
      cases r with
      | ok p => simp
      | error e =>
        simp only []
        intro hcontra
        have he : e = SvcErr.circuitOpen := by simpa using hcontra
        have := predict_impl_no_open env st modelName inputData cfg
        rw [hp, he] at this
        exact this rfl

theorem batchLoop_no_open (env : PSvcEnv) (modelName : String) (cfg : PredConfig) :
    ∀ (chunks : List (List String)) (st : SvcState),
      (batchLoop env modelName cfg st chunks).1 ≠ .error .circuitOpen := by
  intro chunks
  induction chunks with
  | nil => intro st; simp [batchLoop]
  | cons c cs ih =>
    intro st
    unfold batchLoop
    cases hp : predictM env st modelName [("text", preprocess_text_batch c)] cfg with
    | mk r rest =>
      cases rest with
      | mk st1 evs =>
        cases r with
        | error e =>
          simp only []
          intro hcontra
          have he : e = SvcErr.circuitOpen := by simpa using hcontra
          have := predictM_no_open env st modelName [("text", preprocess_text_batch c)] cfg
          rw [hp, he] at this
          exact this rfl
        | ok preds =>
          simp only []
          cases hrec : batchLoop env modelName cfg st1 cs with
          | mk r2 rest2 =>
            cases rest2 with
            | mk st2 evs2 =>
              cases r2 with
              | ok rest3 => simp
              | error e2 =>
                simp only []
                intro hcontra
                have he : e2 = SvcErr.circuitOpen := by simpa using hcontra
                have := ih st1
                rw [hrec, he] at this
                exact this rfl

theorem batch_predict_impl_no_open (env : PSvcEnv) (batchBound : Nat) (st : SvcState)
    (modelName : String) (batchData : List String) (cfg : PredConfig) :
    (batch_predict_impl env batchBound st modelName batchData cfg).1
      ≠ .error .circuitOpen := by
  unfold batch_predict_impl
  split
  · simp
  · dsimp only []
    cases hl : batchLoop env modelName cfg st
        (chunkList (min batchData.length batchBound) batchData) with
    | mk r rest =>
      cases rest with
      | mk st1 evs =>
        cases r with
        | ok results => simp
        | error e =>
          simp only []
          intro hcontra
          have he : e = SvcErr.circuitOpen := by simpa using hcontra
          have := batchLoop_no_open env modelName cfg
            (chunkList (min batchData.length batchBound) batchData) st
          rw [hl, he] at this
          exact this rfl

theorem batch_predictM_no_open (env : PSvcEnv) (batchBound : Nat) (st : SvcState)
    (modelName : String) (batchData : List String) (cfg : PredConfig) :
    (batch_predictM env batchBound st modelName batchData cfg).1
      ≠ .error .circuitOpen := by
  unfold batch_predictM
  cases hp : batch_predict_impl env batchBound st modelName batchData cfg with
  | mk r rest =>
    cases rest with
    | mk st1 evs =>
      cases r with
      | ok rs => simp
      | error e =>
        simp only []
        intro hcontra
        have he : e = SvcErr.circuitOpen := by simpa using hcontra
        have := batch_predict_impl_no_open env batchBound st modelName batchData cfg
        rw [hp, he] at this
        exact this rfl

/-- C5: no public operation of the PyTorch service can surface the circuit
breaker's circuit-open error: predict, batch_predict (for any batch bound)
and load_model never return it for any environment, state and input, and
clear_cache cannot either; by contrast the circuit_breaker wrapper itself
does produce exactly that error when tripped, so the impossibility at the
service interface is precisely because the decorator is applied to no
function. -/
theorem service_never_circuit_open :
    (∀ (env : PSvcEnv) (st : SvcState) (modelName : String)
       (inputData : List (String × Val)) (cfg : PredConfig),
       (predictM env st modelName inputData cfg).1 ≠ .error .circuitOpen) ∧
    (∀ (env : PSvcEnv) (batchBound : Nat) (st : SvcState) (modelName : String)
       (batchData : List String) (cfg : PredConfig),
       (batch_predictM env batchBound st modelName batchData cfg).1
         ≠ .error .circuitOpen) ∧
    (∀ (env : PSvcEnv) (p : String) (c : List (String × String)),
       (load_model env p c).1 ≠ .error .circuitOpen) ∧
    (∀ (env : PSvcEnv) (st : SvcState),
       svc_clear_cache env st ≠ .error .circuitOpen) ∧
    (circuit_breaker_call 3 300 (CBState.mk 3 0) 0 (.ok 0 : Except SvcErr Nat)).2.1
      = .error .circuitOpen := by
  refine ⟨predictM_no_open, batch_predictM_no_open, ?_, ?_, ?_⟩
  · intro env p c h
    rcases load_model_err env p c _ h with h1 | h1 <;> simp at h1
  · intro env st h
    simp [svc_clear_cache] at h
  · rfl

/-! ## Claim C2: batch order preservation -/

theorem chunkAux_flatten {α : Type} (k : Nat) (hk : 1 ≤ k) :
    ∀ (fuel : Nat) (xs : List α), xs.length ≤ fuel →
      (chunkAux k fuel xs).flatten = xs := by
  intro fuel
  induction fuel with
  | zero =>
    intro xs hlen
    have : xs = [] := List.length_eq_zero.mp (Nat.le_zero.mp hlen)
    subst this
    simp [chunkAux]
  | succ n ih =>
    intro xs hlen
    cases xs with
    | nil => simp [chunkAux]
    | cons x xs0 =>
      simp only [chunkAux, List.flatten_cons]
      rw [ih ((x :: xs0).drop k) ?_, List.take_append_drop]
      have hdrop : ((x :: xs0).drop k).length = (x :: xs0).length - k := by
        simp [List.length_drop]
      rw [hdrop]
      have : (x :: xs0).length ≤ n + 1 := hlen
      omega

theorem chunkList_flatten {α : Type} (k : Nat) (hk : 1 ≤ k) (xs : List α) :
    (chunkList k xs).flatten = xs :=
  chunkAux_flatten k hk xs.length xs (Nat.le_refl _)

theorem chunkAux_ne_nil {α : Type} (k : Nat) (hk : 1 ≤ k) :
    ∀ (fuel : Nat) (xs : List α), ∀ c ∈ chunkAux k fuel xs, c ≠ [] := by
  intro fuel
  induction fuel with
  | zero => intro xs c hc; simp [chunkAux] at hc
  | succ n ih =>
    intro xs c hc
    cases xs with
    | nil => simp [chunkAux] at hc
    | cons x xs0 =>
      simp only [chunkAux, List.mem_cons] at hc
      rcases hc with hc | hc
      · subst hc
        have : k ≠ 0 := by omega
        simp [List.take_succ_cons, Nat.sub_one_add_one]
        cases k with
        | zero => omega
        | succ k0 => simp
      · exact ih ((x :: xs0).drop k) c hc

theorem chunkList_ne_nil {α : Type} (k : Nat) (hk : 1 ≤ k) (xs : List α) :
    ∀ c ∈ chunkList k xs, c ≠ [] :=
  chunkAux_ne_nil k hk xs.length xs

theorem batchLoop_ordered (env : PSvcEnv) (modelName : String) (cfg : PredConfig)
    (f : String → List ℚ)
    (hpred : ∀ (st1 : SvcState) (c : List String), c ≠ [] →
      ∃ st2 evs, predictM env st1 modelName [("text", preprocess_text_batch c)] cfg
        = (.ok (c.map f), st2, evs)) :
    ∀ (chunks : List (List String)) (st : SvcState),
      (∀ c ∈ chunks, c ≠ []) →
      ∃ st2 evs, batchLoop env modelName cfg st chunks
        = (.ok (chunks.flatten.map f), st2, evs) := by
  intro chunks
  induction chunks with
  | nil => intro st _; exact ⟨st, [], rfl⟩
  | cons c cs ih =>
    intro st hne
    obtain ⟨st2, evs, heq⟩ := hpred st c (hne c (List.mem_cons_self c cs))
    obtain ⟨st3, evs2, heq2⟩ := ih st2 (fun d hd => hne d (List.mem_cons_of_mem c hd))
    refine ⟨st3, evs ++ evs2, ?_⟩
    unfold batchLoop
    rw [heq]
    simp only []
    rw [heq2]
    simp

/-- C2: for every non-empty list of input items and every positive batch
bound, when each chunk-level predict call yields one prediction row per item
in order (the implicit assumption of the claim), batch_predict returns
exactly one record per input item, in input order: the result list is the
input list mapped through the per-item prediction wrapped as records, and in
particular has the input's length. -/
theorem batch_predict_order (env : PSvcEnv) (batchBound : Nat) (st : SvcState)
    (modelName : String) (items : List String) (cfg : PredConfig)
    (f : String → List ℚ)
    (hK : 1 ≤ batchBound) (hne : items ≠ [])
    (hpred : ∀ (st1 : SvcState) (c : List String), c ≠ [] →
      ∃ st2 evs, predictM env st1 modelName [("text", preprocess_text_batch c)] cfg
        = (.ok (c.map f), st2, evs)) :
    (∃ st2 evs, batch_predictM env batchBound st modelName items cfg
       = (.ok (items.map (fun s => PredRecord.mk (f s))), st2, evs)) ∧
    (items.map (fun s => PredRecord.mk (f s))).length = items.length := by
  constructor
  · have hbs : 1 ≤ min items.length batchBound := by
      have : 1 ≤ items.length := by
        cases items with
        | nil => exact absurd rfl hne
        | cons a l => simp
      omega
    obtain ⟨st2, evs, heq⟩ := batchLoop_ordered env modelName cfg f hpred
      (chunkList (min items.length batchBound) items) st
      (chunkList_ne_nil _ hbs items)
    refine ⟨st2, evs ++ (if env.cudaAvailable then [SvcEvent.gpuGaugeSet] else []), ?_⟩
    unfold batch_predictM batch_predict_impl
    rw [if_neg hne]
    dsimp only []
    rw [heq]
    simp only []
    rw [chunkList_flatten _ hbs]
    simp [List.map_map, Function.comp]
  · simp

/-- Concrete per-item prediction used by the C2 witness: one row holding the
text length. -/
def fC2 : String → List ℚ := fun s => [(s.length : ℚ)]

/-- Concrete service environment for the C2 witness: no accelerator, loads
always produce handle 7, tokenization is the identity, and the model maps an
encoded batch to one prediction row per text, in order. -/
def envC2 : PSvcEnv :=
  ⟨false, fun _ => some 7, fun v => some v,
   fun _ v =>
     match v with
     | Val.encGroups gs => some (gs.flatten.map fC2)
     | Val.txt s => some [fC2 s],
   false⟩

/-- Concrete prediction config for the C2 witness. -/
def cfgC2 : PredConfig := ⟨"p", [("a", "b")]⟩

theorem envC2_pred : ∀ (st1 : SvcState) (c : List String), c ≠ [] →
    ∃ st2 evs, predictM envC2 st1 "m" [("text", preprocess_text_batch c)] cfgC2
      = (.ok (c.map fC2), st2, evs) := by
  intro st1 c _hc
  have hflat : (chunkList MAX_BATCH_SIZE c).flatten = c :=
    chunkList_flatten MAX_BATCH_SIZE (by norm_num [MAX_BATCH_SIZE]) c
  cases hm : dictGet st1.modelCache "m" with
  | some m =>
    have himpl : predict_impl envC2 st1 "m" [("text", preprocess_text_batch c)] cfgC2
        = (.ok (c.map fC2), st1, [SvcEvent.cacheHitInc]) := by
      unfold predict_impl
      rw [if_neg (by simp)]
      simp only [hm, dictGet, if_pos rfl, preprocess_text_batch, envC2]
      simp [hflat]
    refine ⟨st1, [SvcEvent.cacheHitInc, SvcEvent.inferenceObserved], ?_⟩
    unfold predictM
    rw [himpl]
    simp [envC2]
  | none =>
    have hload : load_model envC2 "p" [("a", "b")] = (.ok 7, [SvcEvent.modelLoadObserved]) := rfl
    have himpl : predict_impl envC2 st1 "m" [("text", preprocess_text_batch c)] cfgC2
        = (.ok (c.map fC2), ⟨dictSet st1.modelCache "m" 7⟩, [SvcEvent.modelLoadObserved]) := by
      unfold predict_impl
      rw [if_neg (by simp)]
      simp only [hm, cfgC2, dictGet, if_pos rfl, preprocess_text_batch, envC2]
      simp [hflat, load_model, load_model_impl]
    refine ⟨⟨dictSet st1.modelCache "m" 7⟩,
      [SvcEvent.modelLoadObserved, SvcEvent.inferenceObserved], ?_⟩
    unfold predictM
    rw [himpl]
    simp [envC2]

/-- Witness for C2: three items, batch bound 2 (so chunks of sizes 2 and 1),
run against the concrete environment; the result is one record per item in
input order. -/
theorem batch_predict_order_witness :
    (1 ≤ 2) ∧ (["ab", "c", "def"] ≠ ([] : List String)) ∧
    ((∃ st2 evs, batch_predictM envC2 2 ⟨[]⟩ "m" ["ab", "c", "def"] cfgC2
        = (.ok (["ab", "c", "def"].map (fun s => PredRecord.mk (fC2 s))), st2, evs)) ∧
     (["ab", "c", "def"].map (fun s => PredRecord.mk (fC2 s))).length
        = (["ab", "c", "def"] : List String).length) :=
  ⟨by norm_num, by simp,
   batch_predict_order envC2 2 ⟨[]⟩ "m" ["ab", "c", "def"] cfgC2 fC2
     (by norm_num) (by simp) envC2_pred⟩

/-! ## Claim C3: forced full clear returns a count of zero -/

/-- C3 (code bug): clear_cache with force_clear=true does empty both dicts
and, when cuda is available, releases accelerator memory, but it reports
cleared_models = 0 even when a model was resident, because the source reads
len(self._model_cache) only after clearing it; the claim (and the spec)
require the number of handles resident at call time, here 1. -/
theorem clear_cache_force_count_zero :
    (MMState.mk [("campaign_model_CUSTOM", 7)] [("campaign_model_CUSTOM", 5)]
      ).modelCache.length = 1 ∧
    clear_cache ⟨true, fun _ => 0⟩ 0
        (MMState.mk [("campaign_model_CUSTOM", 7)] [("campaign_model_CUSTOM", 5)])
        true (9 / 10)
      = (MMState.mk [] [], 0, true) :=
  ⟨rfl, rfl⟩

/-! ## Claim C1: cache identity of get_model -/

/-- Nondecreasing test on a list of clock values. -/
def sortedNondec : List Nat → Bool
  | [] => true
  | [_] => true
  | a :: b :: r => a ≤ b && sortedNondec (b :: r)

theorem sortedNondec_cons (a : Nat) (l : List Nat) (ha : ∀ b ∈ l.head?, a ≤ b)
    (hl : sortedNondec l = true) : sortedNondec (a :: l) = true := by
  cases l with
  | nil => rfl
  | cons b r =>
    have hab : a ≤ b := ha b rfl
    simp [sortedNondec, hab, hl]

theorem sortedNondec_tail (a : Nat) (l : List Nat)
    (h : sortedNondec (a :: l) = true) : sortedNondec l = true := by
  cases l with
  | nil => rfl
  | cons b r =>
    simp only [sortedNondec, Bool.and_eq_true] at h
    exact h.2

theorem sortedNondec_head (a b : Nat) (l : List Nat)
    (h : sortedNondec (a :: b :: l) = true) : a ≤ b := by
  simp only [sortedNondec, Bool.and_eq_true, decide_eq_true_eq] at h
  exact h.1

theorem get_model_ok_resident (env : MMEnv) (budget t nm : Nat) (lok : Bool)
    (st : MMState) (name ty : String) (fr : Bool) (m : Nat) (w : Bool) (st1 : MMState)
    (h : get_model env budget t nm lok st name ty fr = .ok (m, w, st1)) :
    dictGet st1.modelCache (cacheKey name ty) = some m := by
  unfold get_model at h
  split at h
  · exact absurd h (by simp)
  · split at h
    · rename_i m0 heq
      injection h with h1
      injection h1 with hm h2
      injection h2 with hw hst
      subst hm
      subst hst
      exact heq
    · split at h
      · injection h with h1
        injection h1 with hm h2
        injection h2 with hw hst
        subst hm
        subst hst
        exact dictGet_dictSet_self _ _ _
      · exact absurd h (by simp)

theorem get_model_ok_type (env : MMEnv) (budget t nm : Nat) (lok : Bool)
    (st : MMState) (name ty : String) (fr : Bool) (r : Nat × Bool × MMState)
    (h : get_model env budget t nm lok st name ty fr = .ok r) :
    ty ∈ MODEL_TYPES := by
  unfold get_model at h
  split at h
  · exact absurd h (by simp)
  · rename_i hty
    exact not_not.mp hty

theorem get_model_hit (env : MMEnv) (budget t nm : Nat) (lok : Bool)
    (st : MMState) (name ty : String) (m : Nat)
    (hty : ty ∈ MODEL_TYPES)
    (hres : dictGet st.modelCache (cacheKey name ty) = some m) :
    get_model env budget t nm lok st name ty false
      = .ok (m, false,
          { st with lastAccessed := dictSet st.lastAccessed (cacheKey name ty) t }) := by
  unfold get_model
  rw [if_neg (by simpa using hty)]
  simp only [hres]

theorem get_model_ok_ts (env : MMEnv) (budget t nm : Nat) (lok : Bool)
    (st : MMState) (name ty : String) (m : Nat) (w : Bool) (st1 : MMState)
    (h : get_model env budget t nm lok st name ty false = .ok (m, w, st1)) :
    (dictGet st1.lastAccessed (cacheKey name ty)).getD 0 ≤ t := by
  unfold get_model at h
  split at h
  · exact absurd h (by simp)
  · split at h
    · injection h with h1
      injection h1 with hm h2
      injection h2 with hw hst
      subst hst
      simp only [dictGet_dictSet_self]
      simp
    · split at h
      · injection h with h1
        injection h1 with hm h2
        injection h2 with hw hst
        subst hst
        simp only [update_cache]
        simp only [dictGet_dictSet_self]
        split <;> simp
      · exact absurd h (by simp)

theorem getSeq_hits (env : MMEnv) (budget nm : Nat) (lok : Bool)
    (name ty : String) (m : Nat) :
    ∀ (ts : List Nat) (st : MMState),
      dictGet st.modelCache (cacheKey name ty) = some m →
      ty ∈ MODEL_TYPES →
      getSeq env budget nm lok name ty st ts
        = ts.map (fun t => .ok (m, false, t)) := by
  intro ts
  induction ts with
  | nil => intro st _ _; rfl
  | cons t ts0 ih =>
    intro st hres hty
    have hstep := get_model_hit env budget t nm lok st name ty m hty hres
    simp only [getSeq, hstep, List.map_cons, dictGet_dictSet_self, Option.getD_some]
    rw [ih _ (by simpa using hres) hty]

/-- C1: in a sequence of get_model calls for one (name, type) key with
force_reload=false and non-decreasing clock values, once the first call has
produced a model handle every later call returns that very same handle with
no fresh load, and the recorded last-accessed timestamps are monotonically
non-decreasing across the sequence. -/
theorem get_model_cache_identity (env : MMEnv) (budget nm : Nat) (lok : Bool)
    (st : MMState) (name ty : String) (t0 : Nat) (ts : List Nat)
    (m : Nat) (w0 : Bool) (st1 : MMState)
    (hfirst : get_model env budget t0 nm lok st name ty false = .ok (m, w0, st1))
    (hmono : sortedNondec (t0 :: ts) = true) :
    getSeq env budget nm lok name ty st (t0 :: ts)
      = .ok (m, w0, (dictGet st1.lastAccessed (cacheKey name ty)).getD 0)
        :: ts.map (fun t => .ok (m, false, t)) ∧
    sortedNondec ((dictGet st1.lastAccessed (cacheKey name ty)).getD 0 :: ts)
      = true := by
  have hty := get_model_ok_type _ _ _ _ _ _ _ _ _ _ hfirst
  have hres := get_model_ok_resident _ _ _ _ _ _ _ _ _ _ _ _ hfirst
  constructor
  · simp only [getSeq, hfirst]
    rw [getSeq_hits env budget nm lok name ty m ts st1 hres hty]
  · have hts0 := get_model_ok_ts _ _ _ _ _ _ _ _ _ _ _ hfirst
    apply sortedNondec_cons
    · intro b hb
      cases ts with
      | nil => simp at hb
      | cons t1 ts1 =>
        simp only [List.head?_cons, Option.mem_def, Option.some.injEq] at hb
        subst hb
        exact le_trans hts0 (sortedNondec_head t0 t1 ts1 hmono)
    · exact sortedNondec_tail t0 ts hmono

/-- Witness for C1: an empty manager, key ("campaign_model", "CUSTOM"), cuda
available, clock values 1, 2, 3; the first call loads handle 42 and the two
later calls return the same handle without loading, timestamps 1 ≤ 2 ≤ 3. -/
theorem get_model_cache_identity_witness :
    (get_model ⟨true, fun _ => 0⟩ 10 1 42 true ⟨[], []⟩ "campaign_model" "CUSTOM" false
      = .ok (42, true,
          ⟨[("campaign_model_CUSTOM", 42)], [("campaign_model_CUSTOM", 1)]⟩)) ∧
    sortedNondec [1, 2, 3] = true ∧
    (getSeq ⟨true, fun _ => 0⟩ 10 42 true "campaign_model" "CUSTOM" ⟨[], []⟩ [1, 2, 3]
      = .ok (42, true,
          (dictGet (MMState.mk [("campaign_model_CUSTOM", 42)]
              [("campaign_model_CUSTOM", 1)]).lastAccessed
            (cacheKey "campaign_model" "CUSTOM")).getD 0)
        :: [2, 3].map (fun t => .ok (42, false, t)) ∧
     sortedNondec ((dictGet (MMState.mk [("campaign_model_CUSTOM", 42)]
              [("campaign_model_CUSTOM", 1)]).lastAccessed
            (cacheKey "campaign_model" "CUSTOM")).getD 0 :: [2, 3]) = true) :=
  ⟨rfl, by decide,
   get_model_cache_identity ⟨true, fun _ => 0⟩ 10 42 true ⟨[], []⟩
     "campaign_model" "CUSTOM" 1 [2, 3] 42 true
     ⟨[("campaign_model_CUSTOM", 42)], [("campaign_model_CUSTOM", 1)]⟩
     rfl (by decide)⟩

/-! ## Claim C6: insert-time LRU eviction in _update_cache -/

theorem foldlMin_mem (ps : List (String × Nat)) (acc : String × Nat) :
    ps.foldl (fun a q => if q.2 < a.2 then q else a) acc ∈ acc :: ps := by
  induction ps generalizing acc with
  | nil => simp
  | cons q qs ih =>
    simp only [List.foldl_cons]
    rcases List.mem_cons.mp (ih (if q.2 < acc.2 then q else acc)) with h | h
    · rw [h]
      split
      · exact List.mem_cons_of_mem _ (List.mem_cons_self _ _)
      · exact List.mem_cons_self _ _
    · exact List.mem_cons_of_mem _ (List.mem_cons_of_mem _ h)

theorem foldlMin_le (ps : List (String × Nat)) (acc : String × Nat) :
    (ps.foldl (fun a q => if q.2 < a.2 then q else a) acc).2 ≤ acc.2 ∧
    ∀ q ∈ ps, (ps.foldl (fun a q => if q.2 < a.2 then q else a) acc).2 ≤ q.2 := by
  induction ps generalizing acc with
  | nil => simp
  | cons q qs ih =>
    simp only [List.foldl_cons]
    obtain ⟨ih1, ih2⟩ := ih (if q.2 < acc.2 then q else acc)
    have hstep : (if q.2 < acc.2 then q else acc).2 ≤ acc.2 ∧
        (if q.2 < acc.2 then q else acc).2 ≤ q.2 := by
      split <;> rename_i hlt
      · exact ⟨Nat.le_of_lt hlt, Nat.le_refl _⟩
      · exact ⟨Nat.le_refl _, Nat.le_of_not_lt hlt⟩
    refine ⟨le_trans ih1 hstep.1, ?_⟩
    intro r hr
    rcases List.mem_cons.mp hr with h | h
    · subst h
      exact le_trans ih1 hstep.2
    · exact ih2 r h

theorem minByVal_mem (d : List (String × Nat)) (p : String × Nat)
    (h : minByVal d = some p) : p ∈ d := by
  cases d with
  | nil => simp [minByVal] at h
  | cons q qs =>
    simp only [minByVal, Option.some.injEq] at h
    exact h ▸ foldlMin_mem qs q

theorem minByVal_le (d : List (String × Nat)) (p : String × Nat)
    (h : minByVal d = some p) : ∀ q ∈ d, p.2 ≤ q.2 := by
  cases d with
  | nil => simp [minByVal] at h
  | cons q qs =>
    simp only [minByVal, Option.some.injEq] at h
    intro r hr
    rcases List.mem_cons.mp hr with h1 | h1
    · exact h ▸ h1 ▸ (foldlMin_le qs q).1
    · exact h ▸ (foldlMin_le qs q).2 r h1

theorem dictGet_of_mem_nodup {α : Type} (d : List (String × α)) (k : String) (v : α)
    (hnd : (d.map Prod.fst).Nodup) (hmem : (k, v) ∈ d) : dictGet d k = some v := by
  induction d with
  | nil => simp at hmem
  | cons p ps ih =>
    simp only [List.map_cons, List.nodup_cons] at hnd
    rcases List.mem_cons.mp hmem with h | h
    · rw [← h]
      simp [dictGet]
    · have hk : p.1 ≠ k := by
        intro hc
        exact hnd.1 (hc ▸ (List.mem_map.mpr ⟨(k, v), h, rfl⟩))
      simp only [dictGet, if_neg hk]
      exact ih hnd.2 h

theorem dictGet_ne_none_of_mem {α : Type} (d : List (String × α)) (k : String) (v : α)
    (hmem : (k, v) ∈ d) : dictGet d k ≠ none := by
  induction d with
  | nil => simp at hmem
  | cons p ps ih =>
    rcases List.mem_cons.mp hmem with h | h
    · rw [← h]
      simp [dictGet]
    · by_cases hp : p.1 = k
      · simp [dictGet, hp]
      · simp only [dictGet, if_neg hp]
        exact ih h

theorem dictDel_map_fst {α : Type} (d : List (String × α)) (k : String) :
    (dictDel d k).map Prod.fst = (d.map Prod.fst).erase k := by
  induction d with
  | nil => simp [dictDel]
  | cons p ps ih =>
    by_cases hp : p.1 = k
    · simp [dictDel, hp, List.erase_cons_head]
    · rw [List.map_cons, List.erase_cons_tail]
      · simp [dictDel, hp, ih]
      · simpa using hp

theorem dictGet_dictDel_ne {α : Type} (d : List (String × α)) (k k' : String)
    (h : k' ≠ k) : dictGet (dictDel d k) k' = dictGet d k' := by
  induction d with
  | nil => simp [dictDel]
  | cons p ps ih =>
    by_cases hp : p.1 = k
    · have hp' : p.1 ≠ k' := by rw [hp]; exact Ne.symm h
      simp [dictDel, dictGet, hp, hp', Ne.symm h]
    · by_cases hp' : p.1 = k'
      · simp [dictDel, dictGet, hp, hp', h]
      · simp [dictDel, dictGet, hp, hp', ih]

theorem mem_of_dictGet {α : Type} (d : List (String × α)) (k : String) (v : α)
    (h : dictGet d k = some v) : (k, v) ∈ d := by
  induction d with
  | nil => simp [dictGet] at h
  | cons p ps ih =>
    by_cases hp : p.1 = k
    · simp only [dictGet, if_pos hp, Option.some.injEq] at h
      have hpk : p = (k, v) := by
        cases p
        simp_all
      exact List.mem_cons.mpr (Or.inl hpk.symm)
    · simp only [dictGet, if_neg hp] at h
      exact List.mem_cons_of_mem _ (ih h)

theorem dictGet_dictDel_self {α : Type} (d : List (String × α)) (k : String)
    (hnd : (d.map Prod.fst).Nodup) : dictGet (dictDel d k) k = none := by
  induction d with
  | nil => simp [dictDel, dictGet]
  | cons p ps ih =>
    simp only [List.map_cons, List.nodup_cons] at hnd
    by_cases hp : p.1 = k
    · simp only [dictDel, if_pos hp]
      cases hg : dictGet ps k with
      | none => rfl
      | some v =>
        exfalso
        apply hnd.1
        rw [hp]
        exact List.mem_map.mpr ⟨(k, v), mem_of_dictGet ps k v hg, rfl⟩
    · simp only [dictDel, if_neg hp, dictGet, if_neg hp]
      exact ih hnd.2

theorem minByVal_ne_none (l : List (String × Nat)) (h : l ≠ []) :
    ∃ p, minByVal l = some p := by
  cases l with
  | nil => exact absurd rfl h
  | cons q qs => exact ⟨_, rfl⟩

theorem dictDel_nodup {α : Type} (d : List (String × α)) (k : String)
    (hnd : (d.map Prod.fst).Nodup) : ((dictDel d k).map Prod.fst).Nodup := by
  rw [dictDel_map_fst]
  exact hnd.erase k

theorem evictLoopF_survivors_mem (env : MMEnv) (budget : Nat) :
    ∀ (fuel : Nat) (c l : List (String × Nat)) (p : String × Nat),
      p ∈ (evictLoopF env budget fuel c l).2.1 → p ∈ l := by
  intro fuel
  induction fuel with
  | zero => intro c l p hp; exact hp
  | succ n ih =>
    intro c l p hp
    unfold evictLoopF at hp
    split at hp
    · cases hmin : minByVal l with
      | none => rw [hmin] at hp; exact hp
      | some q =>
        rw [hmin] at hp
        cases q with
        | mk k v =>
          simp only [] at hp
          exact mem_dictDel _ _ _ (ih _ _ _ hp)
    · exact hp

theorem evictLoopF_evicted_get (env : MMEnv) (budget : Nat) :
    ∀ (fuel : Nat) (c l : List (String × Nat)),
      (l.map Prod.fst).Nodup →
      ∀ k ∈ (evictLoopF env budget fuel c l).2.2, ∃ t, dictGet l k = some t := by
  intro fuel
  induction fuel with
  | zero => intro c l _ k hk; simp [evictLoopF] at hk
  | succ n ih =>
    intro c l hnd k hk
    unfold evictLoopF at hk
    split at hk
    · cases hmin : minByVal l with
      | none => rw [hmin] at hk; simp at hk
      | some q =>
        rw [hmin] at hk
        cases q with
        | mk k0 v =>
          simp only [List.mem_cons] at hk
          rcases hk with hk | hk
          · subst hk
            have hmem := minByVal_mem l (k, v) hmin
            cases hg : dictGet l k with
            | none => exact absurd hg (dictGet_ne_none_of_mem l k v hmem)
            | some t => exact ⟨t, rfl⟩
          · obtain ⟨t, ht⟩ := ih _ _ (dictDel_nodup l k0 hnd) k hk
            have hkne : k ≠ k0 := by
              intro hc
              subst hc
              rw [dictGet_dictDel_self l k hnd] at ht
              exact Option.noConfusion ht
            exact ⟨t, by rw [← dictGet_dictDel_ne l k0 k hkne]; exact ht⟩
    · simp at hk

theorem evictLoopF_lru (env : MMEnv) (budget : Nat) :
    ∀ (fuel : Nat) (c l : List (String × Nat)),
      (l.map Prod.fst).Nodup →
      ∀ k ∈ (evictLoopF env budget fuel c l).2.2, ∀ t, dictGet l k = some t →
        ∀ p ∈ (evictLoopF env budget fuel c l).2.1, t ≤ p.2 := by
  intro fuel
  induction fuel with
  | zero => intro c l _ k hk; simp [evictLoopF] at hk
  | succ n ih =>
    intro c l hnd k hk t ht p hp
    unfold evictLoopF at hk hp
    split at hk
    · rename_i hguard
      rw [if_pos hguard] at hp
      cases hmin : minByVal l with
      | none => rw [hmin] at hk; simp at hk
      | some q =>
        rw [hmin] at hk hp
        cases q with
        | mk k0 v =>
          simp only [List.mem_cons] at hk
          simp only [] at hp
          rcases hk with hk | hk
          · subst hk
            have hmem := minByVal_mem l (k, v) hmin
            have hgv := dictGet_of_mem_nodup l k v hnd hmem
            rw [ht] at hgv
            injection hgv with htv
            have hpl : p ∈ l :=
              mem_dictDel _ _ _ (evictLoopF_survivors_mem env budget n _ _ p hp)
            have := minByVal_le l (k, v) hmin p hpl
            omega
          · have hnd' := dictDel_nodup l k0 hnd
            obtain ⟨t2, ht2⟩ := evictLoopF_evicted_get env budget n _ _ hnd' k hk
            have hkne : k ≠ k0 := by
              intro hc
              subst hc
              rw [dictGet_dictDel_self l k hnd] at ht2
              exact Option.noConfusion ht2
            have ht' : dictGet (dictDel l k0) k = some t := by
              rw [dictGet_dictDel_ne l k0 k hkne]
              exact ht
            exact ih _ _ hnd' k hk t ht' p hp
    · simp at hk

theorem evictLoopF_budget (env : MMEnv) (budget : Nat) :
    ∀ (fuel : Nat) (c l : List (String × Nat)),
      c.map Prod.fst = l.map Prod.fst → l.length ≤ fuel →
      env.mem (evictLoopF env budget fuel c l).1 ≤ budget ∨
        (evictLoopF env budget fuel c l).1 = [] := by
  intro fuel
  induction fuel with
  | zero =>
    intro c l hke hlen
    have hl : l = [] := List.length_eq_zero.mp (Nat.le_zero.mp hlen)
    subst hl
    have hc : c = [] := by
      have := congrArg List.length hke
      simpa using this
    subst hc
    exact Or.inr rfl
  | succ n ih =>
    intro c l hke hlen
    unfold evictLoopF
    split
    · rename_i hguard
      have hcne : c ≠ [] := hguard.2
      have hlne : l ≠ [] := by
        intro hc
        subst hc
        simp only [List.map_nil, List.map_eq_nil_iff] at hke
        exact hcne hke
      obtain ⟨q, hmin⟩ := minByVal_ne_none l hlne
      rw [hmin]
      cases q with
      | mk k v =>
        simp only []
        apply ih
        · rw [dictDel_map_fst, dictDel_map_fst, hke]
        · have hmem := minByVal_mem l (k, v) hmin
          have := length_dictDel_lt l k (dictGet_ne_none_of_mem l k v hmem)
          omega
    · rename_i hguard
      push_neg at hguard
      by_cases hc : c = []
      · exact Or.inr hc
      · exact Or.inl (Nat.le_of_not_lt (fun hlt => hc (hguard hlt)))

theorem evictLoop_first (env : MMEnv) (budget : Nat)
    (c l : List (String × Nat)) (hke : c.map Prod.fst = l.map Prod.fst)
    (hgt : budget < env.mem c) (hne : c ≠ []) :
    ∃ k v r, minByVal l = some (k, v) ∧
      (evictLoop env budget c l).2.2 = k :: r := by
  have hlne : l ≠ [] := by
    intro hcon
    subst hcon
    simp only [List.map_nil, List.map_eq_nil_iff] at hke
    exact hne hke
  obtain ⟨q, hmin⟩ := minByVal_ne_none l hlne
  cases q with
  | mk k v =>
    have hr : ∃ r, (evictLoop env budget c l).2.2 = k :: r := by
      unfold evictLoop
      cases hl : l.length with
      | zero => exact absurd (List.length_eq_zero.mp hl) hlne
      | succ n =>
        have hstep : evictLoopF env budget (n + 1) c l
            = if budget < env.mem c ∧ c ≠ [] then
                match minByVal l with
                | none => (c, l, [])
                | some (k, _) =>
                  let r := evictLoopF env budget n (dictDel c k) (dictDel l k)
                  (r.1, r.2.1, k :: r.2.2)
              else (c, l, []) := rfl
        rw [hstep, if_pos ⟨hgt, hne⟩, hmin]
        exact ⟨(evictLoopF env budget n (dictDel c k) (dictDel l k)).2.2, rfl⟩
    obtain ⟨r, hrr⟩ := hr
    exact ⟨k, v, r, hmin, hrr⟩

/-- The conclusion of claim C6 at given arguments: with no accelerator the
budget check is skipped and no insert-time eviction occurs; with an
accelerator the insertion happens strictly after the eviction loop, every
key the loop evicted had a last-accessed timestamp no later than every
surviving entry, after the loop the budget is met or the cache is empty, and
whenever the budget is exceeded over a non-empty cache, the first key
evicted is exactly the minimum-timestamp item of the last-accessed dict. -/
def updCacheClaim (env : MMEnv) (budget now : Nat)
    (cache lastAcc : List (String × Nat)) (key : String) (model : Nat) : Prop :=
  (env.cudaAvailable = false →
     update_cache env budget now cache lastAcc key model
       = (dictSet cache key model, dictSet lastAcc key 0, [])) ∧
  (env.cudaAvailable = true →
     update_cache env budget now cache lastAcc key model
       = (dictSet (evictLoop env budget cache lastAcc).1 key model,
          dictSet (evictLoop env budget cache lastAcc).2.1 key now,
          (evictLoop env budget cache lastAcc).2.2) ∧
     (∀ k ∈ (evictLoop env budget cache lastAcc).2.2, ∀ t,
        dictGet lastAcc k = some t →
        ∀ p ∈ (evictLoop env budget cache lastAcc).2.1, t ≤ p.2) ∧
     (env.mem (evictLoop env budget cache lastAcc).1 ≤ budget ∨
        (evictLoop env budget cache lastAcc).1 = []) ∧
     (budget < env.mem cache → cache ≠ [] →
        ∃ k v r, minByVal lastAcc = some (k, v) ∧
          (evictLoop env budget cache lastAcc).2.2 = k :: r))

/-- C6: whenever _update_cache inserts a newly loaded handle, while the byte
budget is exceeded and the cache is non-empty the entry with the minimum
last-accessed timestamp is removed (and its memory released) before the new
handle is inserted, and with no accelerator present the budget check is
skipped entirely so no insert-time eviction ever happens. -/
theorem update_cache_lru (env : MMEnv) (budget now : Nat)
    (cache lastAcc : List (String × Nat)) (key : String) (model : Nat)
    (hkeys : cache.map Prod.fst = lastAcc.map Prod.fst)
    (hnd : (lastAcc.map Prod.fst).Nodup) :
    updCacheClaim env budget now cache lastAcc key model := by
  constructor
  · intro h
    simp [update_cache, h]
  · intro h
    refine ⟨by simp [update_cache, h], ?_, ?_, ?_⟩
    · exact evictLoopF_lru env budget lastAcc.length cache lastAcc hnd
    · exact evictLoopF_budget env budget lastAcc.length cache lastAcc hkeys
        (Nat.le_refl _)
    · exact evictLoop_first env budget cache lastAcc hkeys

/-- Witness for C6: cuda available, two resident entries whose reported
memory (100 bytes per entry) exceeds the 150-byte budget, so the older entry
("b", timestamp 3) is evicted before ("c", 9) is inserted. -/
theorem update_cache_lru_witness :
    ([("a", 1), ("b", 2)].map (Prod.fst) = [("a", 5), ("b", 3)].map (Prod.fst)) ∧
    ([("a", 5), ("b", 3)].map (Prod.fst)).Nodup ∧
    updCacheClaim ⟨true, fun c => 100 * c.length⟩ 150 7
      [("a", 1), ("b", 2)] [("a", 5), ("b", 3)] "c" 9 :=
  ⟨by decide, by decide,
   update_cache_lru ⟨true, fun c => 100 * c.length⟩ 150 7
     [("a", 1), ("b", 2)] [("a", 5), ("b", 3)] "c" 9 (by decide) (by decide)⟩

/-! ## Claim C7: threshold-based partial clear -/

theorem insByTs_perm (p : String × Nat) (l : List (String × Nat)) :
    List.Perm (insByTs p l) (p :: l) := by
  induction l with
  | nil => simp [insByTs]
  | cons q qs ih =>
    by_cases h : p.2 ≤ q.2
    · simp [insByTs, h]
    · simp only [insByTs, if_neg h]
      exact (List.Perm.cons q ih).trans (List.Perm.swap p q qs)

theorem sortByTs_perm (l : List (String × Nat)) :
    List.Perm (sortByTs l) l := by
  induction l with
  | nil => simp [sortByTs]
  | cons p ps ih =>
    exact (insByTs_perm p (sortByTs ps)).trans (List.Perm.cons p ih)

theorem sortByTs_length (l : List (String × Nat)) :
    (sortByTs l).length = l.length :=
  (sortByTs_perm l).length_eq

theorem insByTs_pairwise (p : String × Nat) (l : List (String × Nat))
    (hl : List.Pairwise (fun a b : String × Nat => a.2 ≤ b.2) l) :
    List.Pairwise (fun a b : String × Nat => a.2 ≤ b.2) (insByTs p l) := by
  induction l with
  | nil => simp [insByTs]
  | cons q qs ih =>
    rw [List.pairwise_cons] at hl
    by_cases h : p.2 ≤ q.2
    · simp only [insByTs, if_pos h]
      rw [List.pairwise_cons]
      refine ⟨?_, List.pairwise_cons.mpr hl⟩
      intro x hx
      rcases List.mem_cons.mp hx with h1 | h1
      · exact h1 ▸ h
      · exact le_trans h (hl.1 x h1)
    · simp only [insByTs, if_neg h]
      rw [List.pairwise_cons]
      refine ⟨?_, ih hl.2⟩
      intro x hx
      have hx2 : x ∈ p :: qs := (insByTs_perm p qs).mem_iff.mp hx
      rcases List.mem_cons.mp hx2 with h1 | h1
      · exact h1 ▸ le_of_lt (Nat.lt_of_not_le h)
      · exact hl.1 x h1

theorem sortByTs_pairwise (l : List (String × Nat)) :
    List.Pairwise (fun a b : String × Nat => a.2 ≤ b.2) (sortByTs l) := by
  induction l with
  | nil => simp [sortByTs]
  | cons p ps ih => exact insByTs_pairwise p (sortByTs ps) ih

theorem insByTs_filter (p : String × Nat) (m : List (String × Nat)) (t : Nat) :
    (insByTs p m).filter (fun q => q.2 = t)
      = if p.2 = t then p :: m.filter (fun q => q.2 = t)
        else m.filter (fun q => q.2 = t) := by
  induction m with
  | nil =>
    by_cases hp : p.2 = t <;> simp [insByTs, List.filter, hp]
  | cons q qs ih =>
    by_cases hle : p.2 ≤ q.2
    · simp only [insByTs, if_pos hle, List.filter_cons]
      by_cases hp : p.2 = t <;> by_cases hq : q.2 = t <;> simp [hp, hq]
    · simp only [insByTs, if_neg hle, List.filter_cons, ih]
      by_cases hp : p.2 = t
      · have hq : q.2 ≠ t := by
          have : q.2 < p.2 := Nat.lt_of_not_le hle
          omega
        simp [hp, hq]
      · simp [hp]

theorem sortByTs_filter (l : List (String × Nat)) (t : Nat) :
    (sortByTs l).filter (fun q => q.2 = t) = l.filter (fun q => q.2 = t) := by
  induction l with
  | nil => simp [sortByTs]
  | cons p ps ih =>
    show (insByTs p (sortByTs ps)).filter (fun q => q.2 = t) = _
    rw [insByTs_filter]
    by_cases hp : p.2 = t <;> simp [hp, ih, List.filter_cons]

/-- The conclusion of claim C7 at given arguments: with no accelerator, or
with utilization at or below the threshold, the call is a no-op returning
zero cleared; when utilization exceeds the threshold it removes exactly the
first floor(n/2) entries of the stable sort of the last-accessed dict,
reports that count, releases accelerator memory, and every removed entry is
no newer than every survivor, ties resolved by insertion order (a removed
entry with the same timestamp as a survivor occurs before it in the dict). -/
def clearHalfClaim (env : MMEnv) (util : ℚ) (st : MMState)
    (memoryThreshold : ℚ) : Prop :=
  (env.cudaAvailable = false →
     clear_cache env util st false memoryThreshold = (st, 0, false)) ∧
  (env.cudaAvailable = true → util ≤ memoryThreshold →
     clear_cache env util st false memoryThreshold = (st, 0, false)) ∧
  (env.cudaAvailable = true → memoryThreshold < util →
     clear_cache env util st false memoryThreshold
       = (⟨st.modelCache.filter (fun p => p.1 ∉
             (((sortByTs st.lastAccessed).take (st.modelCache.length / 2)).map
               (fun p => p.1))),
           st.lastAccessed.filter (fun p => p.1 ∉
             (((sortByTs st.lastAccessed).take (st.modelCache.length / 2)).map
               (fun p => p.1)))⟩,
          st.modelCache.length / 2, true) ∧
     (∀ a ∈ (sortByTs st.lastAccessed).take (st.modelCache.length / 2),
        ∀ b ∈ (clear_cache env util st false memoryThreshold).1.lastAccessed,
        a.2 ≤ b.2 ∧ (a.2 = b.2 → List.Sublist [a, b] st.lastAccessed)))

/-- C7: clear_cache with force_clear=false acts only when accelerator
utilization strictly exceeds the threshold; it then evicts exactly the
floor(n/2) least-recently-used entries (oldest last-accessed first, ties by
insertion order), reports that count and releases accelerator memory;
otherwise, or with no accelerator, it is a no-op returning zero cleared. -/
theorem clear_cache_half_lru (env : MMEnv) (util : ℚ) (st : MMState)
    (memoryThreshold : ℚ)
    (hlen : st.lastAccessed.length = st.modelCache.length) :
    clearHalfClaim env util st memoryThreshold := by
  refine ⟨?_, ?_, ?_⟩
  · intro h
    simp [clear_cache, h]
  · intro h hle
    simp [clear_cache, h, not_lt.mpr hle]
  · intro h hgt
    have hcount : ((sortByTs st.lastAccessed).take (st.modelCache.length / 2)).length
        = st.modelCache.length / 2 := by
      rw [List.length_take, sortByTs_length, hlen]
      omega
    have heq : clear_cache env util st false memoryThreshold
        = (⟨st.modelCache.filter (fun p => p.1 ∉
              (((sortByTs st.lastAccessed).take (st.modelCache.length / 2)).map
                (fun p => p.1))),
            st.lastAccessed.filter (fun p => p.1 ∉
              (((sortByTs st.lastAccessed).take (st.modelCache.length / 2)).map
                (fun p => p.1)))⟩,
           st.modelCache.length / 2, true) := by
      simp only [clear_cache, h, if_pos hgt]
      simp [hcount]
    refine ⟨heq, ?_⟩
    intro a ha b hb
    rw [heq] at hb
    have hbf : b ∈ st.lastAccessed.filter (fun p => p.1 ∉
        (((sortByTs st.lastAccessed).take (st.modelCache.length / 2)).map
          (fun p => p.1))) := hb
    rw [List.mem_filter] at hbf
    obtain ⟨hbl, hbk⟩ := hbf
    have hbs : b ∈ sortByTs st.lastAccessed := (sortByTs_perm _).mem_iff.mpr hbl
    have hsplit := List.take_append_drop (st.modelCache.length / 2)
      (sortByTs st.lastAccessed)
    have hbd : b ∈ (sortByTs st.lastAccessed).drop (st.modelCache.length / 2) := by
      rcases List.mem_append.mp (by rw [hsplit]; exact hbs) with h1 | h1
      · exfalso
        have hmm : (b.1 ∈ ((sortByTs st.lastAccessed).take
            (st.modelCache.length / 2)).map (fun p => p.1)) :=
          List.mem_map.mpr ⟨b, h1, rfl⟩
        exact (of_decide_eq_true hbk) hmm
      · exact h1
    have hpair := sortByTs_pairwise st.lastAccessed
    rw [← hsplit, List.pairwise_append] at hpair
    refine ⟨hpair.2.2 a ha b hbd, ?_⟩
    intro hab
    have h1 : List.Sublist [a] ((sortByTs st.lastAccessed).take
        (st.modelCache.length / 2)) := List.singleton_sublist.mpr ha
    have h2 : List.Sublist [b] ((sortByTs st.lastAccessed).drop
        (st.modelCache.length / 2)) := List.singleton_sublist.mpr hbd
    have h3 : List.Sublist [a, b] (sortByTs st.lastAccessed) := by
      have := List.Sublist.append h1 h2
      rw [hsplit] at this
      exact this
    have h4 : ([a, b].filter (fun q => q.2 = a.2)) = [a, b] := by
      simp [List.filter_cons, hab]
    have h5 : List.Sublist [a, b]
        ((sortByTs st.lastAccessed).filter (fun q => q.2 = a.2)) := by
      have := h3.filter (fun q => decide (q.2 = a.2))
      rw [h4] at this
      exact this
    rw [sortByTs_filter] at h5
    exact h5.trans (List.filter_sublist _)

/-- Witness for C7: a manager with three resident entries; the claim bundle
is instantiated at utilization 19/20 against threshold 9/10. -/
theorem clear_cache_half_lru_witness :
    ((MMState.mk [("a", 1), ("b", 2), ("c", 3)]
        [("a", 5), ("b", 3), ("c", 4)]).lastAccessed.length
      = (MMState.mk [("a", 1), ("b", 2), ("c", 3)]
        [("a", 5), ("b", 3), ("c", 4)]).modelCache.length) ∧
    clearHalfClaim ⟨true, fun _ => 0⟩ (19 / 20)
      (MMState.mk [("a", 1), ("b", 2), ("c", 3)] [("a", 5), ("b", 3), ("c", 4)])
      (9 / 10) :=
  ⟨by decide,
   clear_cache_half_lru ⟨true, fun _ => 0⟩ (19 / 20)
     (MMState.mk [("a", 1), ("b", 2), ("c", 3)] [("a", 5), ("b", 3), ("c", 4)])
     (9 / 10) (by decide)⟩

/-! ## Claim C9: robust-scaling outlier clipping -/

/-- C9: when exactly one entry of a numeric feature column triggers the
outlier test of the robust path, normalize_features clips exactly that
entry, before scaling, to the signed median of the column's absolute values
(taken after non-finite replacement, which is the identity on an all-finite
column), and the clipped array differs from the raw column only there. -/
theorem normalize_features_robust_outlier
    (robustS standardS minmaxS : List ℚ → List ℚ)
    (xs : List ℚ) (thr : ℚ) (i : Nat) (x : ℚ)
    (hx : xs[i]? = some x)
    (hout : zExceeds (listMean xs) (listVar xs) thr x = true)
    (hothers : ∀ j y, xs[j]? = some y → j ≠ i →
      zExceeds (listMean xs) (listVar xs) thr y = false) :
    normalize_features robustS standardS minmaxS (xs.map FVal.finite) "robust" thr
      = .ok (robustS (robustClip thr xs)) ∧
    (robustClip thr xs).length = xs.length ∧
    (robustClip thr xs)[i]?
      = some (signQ x * medianQ (xs.map (fun v => |v|))) ∧
    (∀ j y, xs[j]? = some y → j ≠ i → (robustClip thr xs)[j]? = some y) := by
  have hclean : nan_to_num (xs.map FVal.finite) = xs := by
    unfold nan_to_num
    rw [List.map_map]
    have hcomp : (nanToNumVal ∘ FVal.finite) = id := by
      funext q
      rfl
    rw [hcomp, List.map_id]
  refine ⟨?_, ?_, ?_, ?_⟩
  · simp only [normalize_features, hclean]
    norm_num
  · simp [robustClip]
  · simp only [robustClip, List.getElem?_map, hx, Option.map_some]
    simp [hout]
  · intro j y hj hne
    simp only [robustClip, List.getElem?_map, hj, Option.map_some]
    simp [hothers j y hj hne]

/-- Witness for C9: the column [0, 0, 4] with threshold 1: its mean is 4/3
and its variance 32/9, so only the entry 4 (squared deviation 64/9 above
1 * 32/9) triggers the test; it is clipped to sign(4) * median(|[0,0,4]|)
= 0 and the other entries are unchanged. -/
theorem normalize_features_robust_outlier_witness :
    (([0, 0, 4] : List ℚ)[2]? = some 4) ∧
    (zExceeds (listMean [0, 0, 4]) (listVar [0, 0, 4]) 1 4 = true) ∧
    (∀ j y, (([0, 0, 4] : List ℚ))[j]? = some y → j ≠ 2 →
      zExceeds (listMean [0, 0, 4]) (listVar [0, 0, 4]) 1 y = false) ∧
    (normalize_features id id id (([0, 0, 4] : List ℚ).map FVal.finite) "robust" 1
      = .ok (id (robustClip 1 [0, 0, 4])) ∧
     (robustClip 1 ([0, 0, 4] : List ℚ)).length = ([0, 0, 4] : List ℚ).length ∧
     (robustClip 1 ([0, 0, 4] : List ℚ))[2]?
       = some (signQ 4 * medianQ (([0, 0, 4] : List ℚ).map (fun v => |v|))) ∧
     (∀ j y, (([0, 0, 4] : List ℚ))[j]? = some y → j ≠ 2 →
       (robustClip 1 ([0, 0, 4] : List ℚ))[j]? = some y)) := by
  have h1 : (([0, 0, 4] : List ℚ))[2]? = some 4 := rfl
  have h2 : zExceeds (listMean [0, 0, 4]) (listVar [0, 0, 4]) 1 4 = true := by
    norm_num [zExceeds, listMean, listVar]
  have h3 : ∀ j y, (([0, 0, 4] : List ℚ))[j]? = some y → j ≠ 2 →
      zExceeds (listMean [0, 0, 4]) (listVar [0, 0, 4]) 1 y = false := by
    intro j y hj hne
    have hjlt : j < 3 := by
      by_contra hge
      rw [List.getElem?_eq_none (by simpa using Nat.le_of_not_lt hge)] at hj
      exact Option.noConfusion hj
    interval_cases j
    · have hy : y = 0 := by
        simpa using hj.symm
      subst hy
      norm_num [zExceeds, listMean, listVar]
    · have hy : y = 0 := by
        simpa using hj.symm
      subst hy
      norm_num [zExceeds, listMean, listVar]
    · exact absurd rfl hne
  exact ⟨h1, h2, h3,
    normalize_features_robust_outlier id id id [0, 0, 4] 1 2 4 h1 h2 h3⟩

/-! ## Claim C10: non-finite replacement in normalize_features -/

/-- Counterexample to C10 as stated: an input containing +inf is not
replaced by zero — np.nan_to_num(features, nan=0.0) only sends NaN to 0 and
leaves posinf/neginf at their numpy defaults, the extreme finite float64
values, so the array handed to the scaler contains the largest finite
float64, not zero. -/
theorem nonfinite_replacement_counterexample :
    normalize_features id id id [FVal.posInf] "standard" 3
      = .ok [FLOAT64_MAX] ∧
    FLOAT64_MAX ≠ 0 ∧
    nan_to_num [FVal.posInf] ≠ [0] := by
  refine ⟨rfl, ?_, ?_⟩
  · norm_num [FLOAT64_MAX]
  · intro h
    simp only [nan_to_num, List.map_cons, List.map_nil, nanToNumVal,
      List.cons.injEq] at h
    exact absurd h.1 (by norm_num [FLOAT64_MAX])

/-- C10 (amended): before any scaling is applied, normalize_features
replaces every NaN with zero, every +inf with the largest finite float64
value, every -inf with its negation, and leaves finite values unchanged;
this replacement is the first step of the pipeline for all three scaling
methods. -/
theorem nan_to_num_replacement (xs : List FVal) :
    (nan_to_num xs).length = xs.length ∧
    (∀ (i : Nat), xs[i]? = some FVal.nan → (nan_to_num xs)[i]? = some 0) ∧
    (∀ (i : Nat), xs[i]? = some FVal.posInf → (nan_to_num xs)[i]? = some FLOAT64_MAX) ∧
    (∀ (i : Nat), xs[i]? = some FVal.negInf → (nan_to_num xs)[i]? = some (-FLOAT64_MAX)) ∧
    (∀ (i : Nat) (q : ℚ), xs[i]? = some (FVal.finite q) → (nan_to_num xs)[i]? = some q) ∧
    (∀ rS sS mS (thr : ℚ), normalize_features rS sS mS xs "standard" thr
       = .ok (sS (nan_to_num xs))) ∧
    (∀ rS sS mS (thr : ℚ), normalize_features rS sS mS xs "minmax" thr
       = .ok (mS (nan_to_num xs))) ∧
    (∀ rS sS mS (thr : ℚ), normalize_features rS sS mS xs "robust" thr
       = .ok (rS (robustClip thr (nan_to_num xs)))) := by
  refine ⟨by simp [nan_to_num], ?_, ?_, ?_, ?_, ?_, ?_, ?_⟩
  · intro i hi
    simp [nan_to_num, List.getElem?_map, hi, nanToNumVal]
  · intro i hi
    simp [nan_to_num, List.getElem?_map, hi, nanToNumVal]
  · intro i hi
    simp [nan_to_num, List.getElem?_map, hi, nanToNumVal]
  · intro i q hi
    simp [nan_to_num, List.getElem?_map, hi, nanToNumVal]
  · intro rS sS mS thr
    simp [normalize_features]
  · intro rS sS mS thr
    simp [normalize_features]
  · intro rS sS mS thr
    simp [normalize_features]

/-- Witness for the amended C10 at a concrete array holding a NaN, both
infinities and a finite value. -/
theorem nan_to_num_replacement_witness :
    (nan_to_num [FVal.nan, FVal.posInf, FVal.negInf, FVal.finite 3]).length
      = ([FVal.nan, FVal.posInf, FVal.negInf, FVal.finite 3] : List FVal).length ∧
    (∀ (i : Nat), ([FVal.nan, FVal.posInf, FVal.negInf, FVal.finite 3] : List FVal)[i]?
        = some FVal.nan →
      (nan_to_num [FVal.nan, FVal.posInf, FVal.negInf, FVal.finite 3])[i]? = some 0) ∧
    (∀ (i : Nat), ([FVal.nan, FVal.posInf, FVal.negInf, FVal.finite 3] : List FVal)[i]?
        = some FVal.posInf →
      (nan_to_num [FVal.nan, FVal.posInf, FVal.negInf, FVal.finite 3])[i]?
        = some FLOAT64_MAX) ∧
    (∀ (i : Nat), ([FVal.nan, FVal.posInf, FVal.negInf, FVal.finite 3] : List FVal)[i]?
        = some FVal.negInf →
      (nan_to_num [FVal.nan, FVal.posInf, FVal.negInf, FVal.finite 3])[i]?
        = some (-FLOAT64_MAX)) ∧
    (∀ (i : Nat) (q : ℚ), ([FVal.nan, FVal.posInf, FVal.negInf, FVal.finite 3] : List FVal)[i]?
        = some (FVal.finite q) →
      (nan_to_num [FVal.nan, FVal.posInf, FVal.negInf, FVal.finite 3])[i]? = some q) ∧
    (∀ rS sS mS (thr : ℚ), normalize_features rS sS mS
        [FVal.nan, FVal.posInf, FVal.negInf, FVal.finite 3] "standard" thr
      = .ok (sS (nan_to_num [FVal.nan, FVal.posInf, FVal.negInf, FVal.finite 3]))) ∧
    (∀ rS sS mS (thr : ℚ), normalize_features rS sS mS
        [FVal.nan, FVal.posInf, FVal.negInf, FVal.finite 3] "minmax" thr
      = .ok (mS (nan_to_num [FVal.nan, FVal.posInf, FVal.negInf, FVal.finite 3]))) ∧
    (∀ rS sS mS (thr : ℚ), normalize_features rS sS mS
        [FVal.nan, FVal.posInf, FVal.negInf, FVal.finite 3] "robust" thr
      = .ok (rS (robustClip thr
          (nan_to_num [FVal.nan, FVal.posInf, FVal.negInf, FVal.finite 3])))) :=
  nan_to_num_replacement [FVal.nan, FVal.posInf, FVal.negInf, FVal.finite 3]

/-- Witness for C5 at a concrete environment, state and input. -/
theorem service_never_circuit_open_witness :
    (predictM ⟨false, fun _ => none, fun _ => none, fun _ _ => none, false⟩
       ⟨[]⟩ "m" [("text", Val.txt "hi")] ⟨"p", []⟩).1 ≠ .error .circuitOpen :=
  service_never_circuit_open.1
    ⟨false, fun _ => none, fun _ => none, fun _ _ => none, false⟩
    ⟨[]⟩ "m" [("text", Val.txt "hi")] ⟨"p", []⟩
